import Mathlib

/-!
Shallow embedding of `zarr/hierarchy.py` (the namespace engine of the
zarr-python repository) together with the external collaborator contracts it
consumes (§3, §4.1, §4.2, §6 of the specification).

Embedding conventions:
* Python store keys are `'/'`-separated strings; they are modelled as lists of
  path segments (`List String`).  A store is an association list from keys to
  abstract values.  Byte payloads appear only through the metadata that the
  namespace engine decodes from them, so a value is modelled as either a group
  metadata document, an array metadata document (shape and dtype), or an
  opaque payload.
* The Python `Group` object holds a reference to the live store; every
  operation reads the store at call time.  Here the store is passed explicitly
  to every operation, and mutating operations return the updated store.
* Fallible operations return `Except ZErr` (the error taxonomy of §7), paired
  with the resulting store for mutating operations so that "store unchanged"
  is expressible.
-/

/-- Error taxonomy of §7 of the specification (Python raises `KeyError` for
`NotFoundError` and `TypeError` for `TypeMismatchError`; `zarr.errors` supplies
the `err_*` helpers used by `hierarchy.py`). -/
inductive ZErr where
  | ContainsArrayError
  | ContainsGroupError
  | GroupNotFoundError
  | ReadOnlyError
  | NotFoundError
  | TypeMismatchError
  | MetadataError
deriving DecidableEq, Repr

/-- Modelled from the spec: numpy element types, restricted to the signed
integer and floating dtypes exercised here.  numpy is an external collaborator
(§6 exposes `shape`/`dtype` accessors); only `np.dtype` resolution and
`np.can_cast` are consumed by `hierarchy.py`. -/
inductive Dtype where
  | i1 | i2 | i4 | i8 | f4 | f8
deriving DecidableEq, Repr

/-- Width rank of an integer dtype (for the safe-casting table). -/
def Dtype.intRank : Dtype → Nat
  | .i1 => 1 | .i2 => 2 | .i4 => 3 | .i8 => 4 | _ => 0

/-- True for the floating dtypes. -/
def Dtype.isFloat : Dtype → Bool
  | .f4 => true | .f8 => true | _ => false

/-- Modelled from the spec: `np.can_cast(src, dst, casting='safe')` on the
dtypes above.  Integers widen to wider integers; `i1`/`i2` fit in `f4`; every
signed integer here is accepted into `f8` (numpy's safe table); floats widen to
wider floats; floats never cast safely to integers. -/
def can_cast (src dst : Dtype) : Bool :=
  match src, dst with
  | .f4, .f4 => true
  | .f4, .f8 => true
  | .f8, .f8 => true
  | .f4, _ => false
  | .f8, _ => false
  | s, .f4 => s.intRank ≤ 2
  | _, .f8 => true
  | s, d => s.intRank ≤ d.intRank

/-- Modelled from the spec: `np.dtype(x)` with `x` optional; `np.dtype(None)`
resolves to float64. -/
def npDtype : Option Dtype → Dtype
  | none => .f8
  | some d => d

/-- Modelled from the spec: the decoded content of a stored byte value, as far
as the namespace engine can observe it through the metadata collaborator (§6):
a group metadata document, an array metadata document carrying the shape and
dtype accessors used by `require_dataset`, or opaque bytes. -/
inductive Value where
  | groupMeta
  | arrayMeta (shape : List Nat) (dtype : Dtype)
  | other (payload : String)
deriving DecidableEq, Repr

/-- A store is a flat, string-keyed mapping (§3); keys are modelled as segment
lists. -/
abbrev Store := List (List String × Value)

/-- Key lookup (`store[key]`, with `KeyError` rendered as `none`). -/
def Store.lookupKey (s : Store) (k : List String) : Option Value :=
  match s with
  | [] => none
  | kv :: rest => if kv.1 = k then some kv.2 else Store.lookupKey rest k

/-- Set-by-key (`store[key] = value`). -/
def Store.insertKey (s : Store) (k : List String) (v : Value) : Store :=
  (k, v) :: s.filter (fun kv => ¬ kv.1 = k)

/-- Name of the sentinel key marking a path as a group (`.zgroup`). -/
def group_meta_key : String := ".zgroup"

/-- Name of the sentinel key marking a path as an array (`.zarray`). -/
def array_meta_key : String := ".zarray"

/-- Name of the key holding user attributes (`.zattrs`). -/
def attrs_key : String := ".zattrs"

/-- Modelled from the spec: `zarr.storage.contains_array` — a single existence
check of the array sentinel key at the path (§4.2). -/
def contains_array (s : Store) (p : List String) : Bool :=
  (s.lookupKey (p ++ [array_meta_key])).isSome

/-- Modelled from the spec: `zarr.storage.contains_group` — a single existence
check of the group sentinel key at the path (§4.2). -/
def contains_group (s : Store) (p : List String) : Bool :=
  (s.lookupKey (p ++ [group_meta_key])).isSome

/-- Next-level segment of `key` below the path `p`, when `key` lies below
`p`. -/
def childName (p key : List String) : Option String :=
  if key.take p.length = p then key.get? p.length else none

/-- Modelled from the spec: the store's immediate-child listing at a path
(`zarr.storage.listdir`, §3/§6): the set of next-level segment names of the
keys lying below the path, each name listed once. -/
def listdir (s : Store) (p : List String) : List String :=
  ((s.map (fun kv => kv.1)).filterMap (childName p)).dedup

/-- Modelled from the spec: subtree removal (`zarr.storage.rmdir`, "delete
by prefix for subtree removal", §3): every key strictly below the path is
removed. -/
def rmdir (s : Store) (p : List String) : Store :=
  s.filter (fun kv => ¬ (p <+: kv.1 ∧ kv.1 ≠ p))

/-- Modelled from the spec: group-sentinel initialization
(`zarr.storage.init_group`, §4.7/§6).  With `overwrite`, pre-existing content
below the path is wiped first; otherwise an existing array or group at the
path is an error.  Finally the group sentinel key is written. -/
def init_group (s : Store) (p : List String) (overwrite : Bool) :
    Store × Except ZErr Unit :=
  if overwrite then
    ((rmdir s p).insertKey (p ++ [group_meta_key]) .groupMeta, .ok ())
  else if contains_array s p then (s, .error .ContainsArrayError)
  else if contains_group s p then (s, .error .ContainsGroupError)
  else (s.insertKey (p ++ [group_meta_key]) .groupMeta, .ok ())

/-- Modelled from the spec: array initialization by the external array factory
(`zarr.creation.create` and friends, §6): writes the array sentinel key
carrying the requested shape and dtype; an existing array or group at the path
is an error unless `overwrite` is set. -/
def init_array (s : Store) (p : List String) (shape : List Nat) (d : Dtype)
    (overwrite : Bool) : Store × Except ZErr Unit :=
  if overwrite then
    ((rmdir s p).insertKey (p ++ [array_meta_key]) (.arrayMeta shape d), .ok ())
  else if contains_array s p then (s, .error .ContainsArrayError)
  else if contains_group s p then (s, .error .ContainsGroupError)
  else (s.insertKey (p ++ [array_meta_key]) (.arrayMeta shape d), .ok ())

/-- Shape and dtype of the array stored at a path, decoded from the array
sentinel value (the `shape`/`dtype` accessors of the array collaborator,
§6). -/
def getArrayMeta (s : Store) (p : List String) : Option (List Nat × Dtype) :=
  match s.lookupKey (p ++ [array_meta_key]) with
  | some (.arrayMeta shape d) => some (shape, d)
  | _ => none

/-- Modelled from the spec: `decode_group_metadata` of the metadata
collaborator (§6); bytes that are not a group metadata document fail to
decode. -/
def decode_group_metadata (v : Value) : Except ZErr Unit :=
  match v with
  | .groupMeta => .ok ()
  | _ => .error .MetadataError

/-- Splits a character list at `'/'` (accumulator-style, mirroring the
character scan of the path normalizer). -/
def splitSlashAux (cur : List Char) : List Char → List (List Char)
  | [] => [cur]
  | c :: rest =>
      if c = '/' then cur :: splitSlashAux [] rest
      else splitSlashAux (cur ++ [c]) rest

/-- Modelled from the spec: `zarr.util.normalize_storage_path` (§4.1) — split
the supplied name at the separator, silently collapsing empty segments (the
documented implementer's choice), yielding the normalized segment list with no
leading or trailing separator. -/
def normalize_storage_path (s : String) : List String :=
  ((splitSlashAux [] s.data).filter (fun cs => cs ≠ [])).map (fun cs => String.mk cs)

/-- Python's `item and item[0] == '/'` test on a string. -/
def pyIsAbs (s : String) : Bool :=
  match s.data with
  | c :: _ => c = '/'
  | [] => false

/-- Python's `s[k:]` slice. -/
def pyDrop (k : Nat) (s : String) : String := String.mk (s.data.drop k)

/-- Python's `s.lstrip("/")`. -/
def pyLstripSlash (s : String) : String := String.mk (s.data.dropWhile (fun c => c = '/'))

/-- Joins segments with the separator (the textual form of a segment list). -/
def joinSlash : List String → String
  | [] => ""
  | [x] => x
  | x :: xs => x ++ "/" ++ joinSlash xs

/-- The `name` property of a group or array handle: the normalized path with a
leading slash (h5py convention), `"/"` for the root. -/
def nameOfPath (p : List String) : String := "/" ++ joinSlash p

/-- Code-point lexicographic comparison of character lists (Python's `<` on
strings compares code points left to right). -/
def charListLt : List Char → List Char → Bool
  | _, [] => false
  | [], _ :: _ => true
  | a :: as, b :: bs =>
      if a.toNat < b.toNat then true
      else if b.toNat < a.toNat then false
      else charListLt as bs

/-- Python's `<` on strings. -/
def strLt (a b : String) : Bool := charListLt a.data b.data

/-- Python's `<=` on strings (the order used by `sorted`). -/
def strLe (a b : String) : Bool := !(strLt b a)

/-- A group handle (§3): stateless beyond its configuration.  The store is not
a field — it is passed to every operation, reflecting that the Python object
only holds a reference and always reads the live store.  `synced` records
whether a synchronizer is configured (`self._synchronizer is not None`); the
`chunk_store` and attributes view play no role in the claims and are
omitted. -/
structure ZGroup where
  path : List String
  read_only : Bool
  synced : Bool
deriving DecidableEq, Repr

/-- An array handle as far as the namespace engine observes it: its path, the
decoded shape and dtype, and the read-only flag it was constructed with. -/
structure ZArray where
  path : List String
  shape : List Nat
  dtype : Dtype
  read_only : Bool
deriving DecidableEq, Repr

/-- `Group.__init__`: normalize the path, fail with `ContainsArrayError` if the
path already denotes an array, then read and decode the group metadata at the
path's sentinel key, failing with `GroupNotFoundError` when the key is absent.
The constructor performs no store writes, which the embedding reflects by not
returning a store: a handle is a view, never an implicit creator. -/
def ZGroup.init (s : Store) (path : String) (read_only synced : Bool) :
    Except ZErr ZGroup :=
  let p := normalize_storage_path path
  if contains_array s p then .error .ContainsArrayError
  else
    match s.lookupKey (p ++ [group_meta_key]) with
    | none => .error .GroupNotFoundError
    | some v =>
        match decode_group_metadata v with
        | .error e => .error e
        | .ok _ => .ok ⟨p, read_only, synced⟩

/-- `Group._item_path`: an item name starting with the separator is absolute
(the handle's prefix is ignored); otherwise the normalized name is appended to
the handle's path (`self._key_prefix + path`, which is the identity prefix for
the root). -/
def resolveItem (base : List String) (item : String) : List String :=
  if pyIsAbs item then normalize_storage_path item
  else base ++ normalize_storage_path item

/-- `Group._item_path` on a handle. -/
def ZGroup.item_path (g : ZGroup) (item : String) : List String :=
  resolveItem g.path item

/-- Body of `Group.__iter__` at a given path: sort the store's immediate-child
listing, and keep each name whose path classifies as an array or a group. -/
def membersAt (s : Store) (p : List String) : List String :=
  (List.insertionSort (fun a b => strLe a b = true) (listdir s p)).filter
    (fun k => contains_array s (p ++ [k]) || contains_group s (p ++ [k]))

/-- `Group.__iter__`: sort the store's immediate-child listing at the handle's
path, and yield each name whose path classifies as an array or a group. -/
def ZGroup.memberNames (g : ZGroup) (s : Store) : List String :=
  membersAt s g.path

/-- `Group.__len__`: `sum(1 for _ in self)`. -/
def ZGroup.size (g : ZGroup) (s : Store) : Nat :=
  (g.memberNames s).foldl (fun c _ => c + 1) 0

/-- `Group.group_keys`: sorted child names whose paths classify as groups. -/
def ZGroup.group_keys (g : ZGroup) (s : Store) : List String :=
  (List.insertionSort (fun a b => strLe a b = true) (listdir s g.path)).filter
    (fun k => contains_group s (g.path ++ [k]))

/-- `Group.array_keys`: sorted child names whose paths classify as arrays. -/
def ZGroup.array_keys (g : ZGroup) (s : Store) : List String :=
  (List.insertionSort (fun a b => strLe a b = true) (listdir s g.path)).filter
    (fun k => contains_array s (g.path ++ [k]))

/-- An observable action on the synchronizer: entering or leaving the scoped
lock named by a key (`with self._synchronizer[key]:`). -/
inductive SyncEvent where
  | acquire (key : String)
  | release (key : String)
deriving DecidableEq, Repr

/-- Result of a guarded (mutating) operation: the resulting store, the outcome,
and the trace of synchronizer actions performed by the guard. -/
abbrev WResult (α : Type) : Type := Store × Except ZErr α × List SyncEvent

/-- `Group._write_op`: fail with `ReadOnlyError` if the handle is read-only;
otherwise run the operation, scoped inside the synchronizer's lock named by
the fixed root group metadata key when a synchronizer is configured (the
`with` statement releases the lock on every exit path, so the release event
follows the body unconditionally), and unguarded otherwise. -/
def ZGroup.write_op {α : Type} (g : ZGroup) (s : Store)
    (f : Store → Store × Except ZErr α) : WResult α :=
  if g.read_only then (s, .error .ReadOnlyError, [])
  else if g.synced then
    ((f s).1, (f s).2, [.acquire group_meta_key, .release group_meta_key])
  else ((f s).1, (f s).2, [])

/-- `Group._create_group_nosync`: resolve the path, initialize the terminal
group, and return a fresh handle at that path. -/
def ZGroup.create_group_nosync (g : ZGroup) (s : Store) (name : String)
    (overwrite : Bool) : Store × Except ZErr ZGroup :=
  let p := g.item_path name
  match init_group s p overwrite with
  | (s2, .error e) => (s2, .error e)
  | (s2, .ok _) => (s2, .ok ⟨p, g.read_only, g.synced⟩)

/-- `Group.create_group`. -/
def ZGroup.create_group (g : ZGroup) (s : Store) (name : String)
    (overwrite : Bool) : WResult ZGroup :=
  g.write_op s (fun st => g.create_group_nosync st name overwrite)

/-- `Group._require_group_nosync`: initialize the terminal group only when the
path is not already classified as a group, then return a fresh handle. -/
def ZGroup.require_group_nosync (g : ZGroup) (s : Store) (name : String)
    (overwrite : Bool) : Store × Except ZErr ZGroup :=
  let p := g.item_path name
  if contains_group s p then (s, .ok ⟨p, g.read_only, g.synced⟩)
  else
    match init_group s p overwrite with
    | (s2, .error e) => (s2, .error e)
    | (s2, .ok _) => (s2, .ok ⟨p, g.read_only, g.synced⟩)

/-- `Group.require_group`. -/
def ZGroup.require_group (g : ZGroup) (s : Store) (name : String)
    (overwrite : Bool) : WResult ZGroup :=
  g.write_op s (fun st => g.require_group_nosync st name overwrite)

/-- `Group._create_dataset_nosync` with `data=None`: resolve the path and
delegate to the external array factory (`zarr.creation.create`), which
initializes the array and returns a fresh, writable array handle. -/
def ZGroup.create_dataset_nosync (g : ZGroup) (s : Store) (name : String)
    (shape : List Nat) (dtype : Option Dtype) (overwrite : Bool) :
    Store × Except ZErr ZArray :=
  let p := g.item_path name
  match init_array s p shape (npDtype dtype) overwrite with
  | (s2, .error e) => (s2, .error e)
  | (s2, .ok _) => (s2, .ok ⟨p, shape, npDtype dtype, false⟩)

/-- `Group.create_dataset`. -/
def ZGroup.create_dataset (g : ZGroup) (s : Store) (name : String)
    (shape : List Nat) (dtype : Option Dtype) (overwrite : Bool) :
    WResult ZArray :=
  g.write_op s (fun st => g.create_dataset_nosync st name shape dtype overwrite)

/-- `Group._require_dataset_nosync`: if an array already exists at the resolved
path, construct its handle (decoding its metadata), then require the
normalized requested shape to equal the stored shape, and the resolved
requested dtype to equal the stored dtype exactly (`exact=True`) or to satisfy
`np.can_cast(requested, stored)` (`exact=False`); shape or dtype violations
raise `TypeError` (`TypeMismatchError`).  Otherwise create the array with the
requested shape and dtype. -/
def ZGroup.require_dataset_nosync (g : ZGroup) (s : Store) (name : String)
    (shape : List Nat) (dtype : Option Dtype) (exact : Bool) :
    Store × Except ZErr ZArray :=
  let p := g.item_path name
  if contains_array s p then
    match getArrayMeta s p with
    | none => (s, .error .MetadataError)
    | some (ashape, adtype) =>
        if shape ≠ ashape then (s, .error .TypeMismatchError)
        else
          let d := npDtype dtype
          if exact then
            if d ≠ adtype then (s, .error .TypeMismatchError)
            else (s, .ok ⟨p, ashape, adtype, g.read_only⟩)
          else
            if ¬ can_cast d adtype then (s, .error .TypeMismatchError)
            else (s, .ok ⟨p, ashape, adtype, g.read_only⟩)
  else g.create_dataset_nosync s name shape dtype false

/-- `Group.require_dataset`. -/
def ZGroup.require_dataset (g : ZGroup) (s : Store) (name : String)
    (shape : List Nat) (dtype : Option Dtype) (exact : Bool) : WResult ZArray :=
  g.write_op s (fun st => g.require_dataset_nosync st name shape dtype exact)

/-- `Group.create` (keyword arguments as per `zarr.creation.create`). -/
def ZGroup.create (g : ZGroup) (s : Store) (name : String) (shape : List Nat)
    (dtype : Option Dtype) (overwrite : Bool) : WResult ZArray :=
  g.write_op s (fun st => g.create_dataset_nosync st name shape dtype overwrite)

/-- `Group.empty` (array factory; the fill semantics live in the chunk layer,
outside the namespace engine). -/
def ZGroup.empty (g : ZGroup) (s : Store) (name : String) (shape : List Nat)
    (dtype : Option Dtype) (overwrite : Bool) : WResult ZArray :=
  g.write_op s (fun st => g.create_dataset_nosync st name shape dtype overwrite)

/-- `Group.zeros` (array factory). -/
def ZGroup.zeros (g : ZGroup) (s : Store) (name : String) (shape : List Nat)
    (dtype : Option Dtype) (overwrite : Bool) : WResult ZArray :=
  g.write_op s (fun st => g.create_dataset_nosync st name shape dtype overwrite)

/-- `Group.ones` (array factory). -/
def ZGroup.ones (g : ZGroup) (s : Store) (name : String) (shape : List Nat)
    (dtype : Option Dtype) (overwrite : Bool) : WResult ZArray :=
  g.write_op s (fun st => g.create_dataset_nosync st name shape dtype overwrite)

/-- `Group.full` (array factory; the fill value itself is chunk-layer data). -/
def ZGroup.full (g : ZGroup) (s : Store) (name : String) (shape : List Nat)
    (dtype : Option Dtype) (overwrite : Bool) : WResult ZArray :=
  g.write_op s (fun st => g.create_dataset_nosync st name shape dtype overwrite)

/-- `Group.array` (`zarr.creation.array(data, ...)`): the shape and dtype are
those of the supplied data. -/
def ZGroup.array (g : ZGroup) (s : Store) (name : String)
    (dataShape : List Nat) (dataDtype : Dtype) (overwrite : Bool) :
    WResult ZArray :=
  g.write_op s
    (fun st => g.create_dataset_nosync st name dataShape (some dataDtype) overwrite)

/-- `Group.empty_like` (array factory over another array's shape/dtype). -/
def ZGroup.empty_like (g : ZGroup) (s : Store) (name : String) (data : ZArray) :
    WResult ZArray :=
  g.write_op s
    (fun st => g.create_dataset_nosync st name data.shape (some data.dtype) false)

/-- `Group.zeros_like` (array factory). -/
def ZGroup.zeros_like (g : ZGroup) (s : Store) (name : String) (data : ZArray) :
    WResult ZArray :=
  g.write_op s
    (fun st => g.create_dataset_nosync st name data.shape (some data.dtype) false)

/-- `Group.ones_like` (array factory). -/
def ZGroup.ones_like (g : ZGroup) (s : Store) (name : String) (data : ZArray) :
    WResult ZArray :=
  g.write_op s
    (fun st => g.create_dataset_nosync st name data.shape (some data.dtype) false)

/-- `Group.full_like` (array factory). -/
def ZGroup.full_like (g : ZGroup) (s : Store) (name : String) (data : ZArray) :
    WResult ZArray :=
  g.write_op s
    (fun st => g.create_dataset_nosync st name data.shape (some data.dtype) false)

/-- `Group.__setitem__`: sugar for `self.array(item, value, overwrite=True)`. -/
def ZGroup.setitem (g : ZGroup) (s : Store) (item : String)
    (dataShape : List Nat) (dataDtype : Dtype) : WResult ZArray :=
  g.array s item dataShape dataDtype true

/-- `Group._delitem_nosync`: if the resolved path classifies as an array or a
group, remove the subtree rooted there; otherwise raise `KeyError`
(`NotFoundError`). -/
def ZGroup.delitem_nosync (g : ZGroup) (s : Store) (item : String) :
    Store × Except ZErr Unit :=
  let p := g.item_path item
  if contains_array s p || contains_group s p then (rmdir s p, .ok ())
  else (s, .error .NotFoundError)

/-- `Group.__delitem__`. -/
def ZGroup.delitem (g : ZGroup) (s : Store) (item : String) : WResult Unit :=
  g.write_op s (fun st => g.delitem_nosync st item)

/-- A namespace node as produced by `Group.__getitem__` during traversal:
either a group handle or an array handle, identified by its resolved path
(the configuration flags are inherited from the root handle and play no role
in traversal). -/
inductive Node where
  | group (path : List String)
  | array (path : List String)
deriving DecidableEq, Repr

/-- Path of a node. -/
def Node.pathOf : Node → List String
  | .group p => p
  | .array p => p

/-- The `name` property of the handle a node stands for. -/
def Node.name (n : Node) : String := nameOfPath n.pathOf

/-- `Group.__getitem__` applied to a member name yielded by the member
iterator: classify the resolved path, array first.  For such names exactly one
of the two classifications holds, so the `KeyError` branch of the source is
unreachable here; the fallthrough picks the group constructor. -/
def childObj (s : Store) (base : List String) (k : String) : Node :=
  let q := resolveItem base k
  if contains_array s q then .array q else .group q

/-- Depth of the deepest key in the store. -/
def maxKeyDepth (s : Store) : Nat :=
  (s.map (fun kv => kv.1.length)).foldr max 0

/-- Fuel sufficient to expand the whole tree below any path: every group node
with a nonempty member listing sits at depth strictly below the deepest key,
so `maxKeyDepth s + 1` levels always reach a fixpoint (`preorderF_stable`
below makes this precise). -/
def fuelOf (s : Store) : Nat := maxKeyDepth s + 1

/-- The sequence yielded by the `_visit` generator of `Group.visitvalues`: the
node itself, then (for group nodes) the pre-order sequences of its members in
sorted order; array handles expose no `keys` attribute and contribute no
children.  Recursion is indexed by fuel to make it structural. -/
def preorderF (s : Store) : Nat → Node → List Node
  | _, .array p => [.array p]
  | 0, .group p => [.group p]
  | fuel + 1, .group p =>
      .group p :: (membersAt s p).flatMap (fun k => preorderF s fuel (childObj s p k))

/-- The nodes `islice(_visit(self), 1, None)` runs over: the pre-order
sequence rooted at the handle, with the root itself dropped. -/
def ZGroup.descendants (g : ZGroup) (s : Store) : List Node :=
  (preorderF s (fuelOf s) (.group g.path)).drop 1

/-- The consumer loop of `Group.visitvalues`: apply the visitor to each node in
turn, threading the visitor's state; stop and return the first non-`None`
value, or `None` after the last node. -/
def runVisitor {S V : Type} (fn : S → Node → S × Option V) :
    List Node → S → S × Option V
  | [], st => (st, none)
  | n :: rest, st =>
      match fn st n with
      | (st2, some v) => (st2, some v)
      | (st2, none) => runVisitor fn rest st2

/-- `Group.visitvalues`: run the visitor over every object below the handle in
depth-first pre-order, with the short-circuit semantics of `runVisitor`.  The
visitor is modelled with an explicit state so that "which nodes were visited"
is observable. -/
def ZGroup.visitvalues {S V : Type} (g : ZGroup) (s : Store)
    (fn : S → Node → S × Option V) (st : S) : S × Option V :=
  runVisitor fn (g.descendants s) st

/-- The path string handed to the visitor by `Group.visit`:
`o.name[base_len:].lstrip("/")` where `base_len = len(self.name)`. -/
def relOf (g : ZGroup) (n : Node) : String :=
  pyLstripSlash (pyDrop (nameOfPath g.path).length n.name)

/-- `Group.visit`: run the visitor over each object's path relative to this
handle. -/
def ZGroup.visit {S V : Type} (g : ZGroup) (s : Store)
    (fn : S → String → S × Option V) (st : S) : S × Option V :=
  g.visitvalues s (fun a o => fn a (relOf g o)) st

/-- `Group.visitkeys`: an alias for `Group.visit`. -/
def ZGroup.visitkeys {S V : Type} (g : ZGroup) (s : Store)
    (fn : S → String → S × Option V) (st : S) : S × Option V :=
  g.visit s fn st

/-- A well-formed path segment: nonempty and free of the separator.  String
store keys decompose into such segments by construction (splitting at the
separator), so stores produced by the backends consist of keys whose segments
all satisfy this. -/
def goodSeg (x : String) : Prop := x ≠ "" ∧ '/' ∉ x.data

instance (x : String) : Decidable (goodSeg x) := by
  unfold goodSeg
  infer_instance

/-- Well-formedness of the segment-list store model: every key is a list of
nonempty, separator-free segments — exactly the keys representable as
`'/'`-separated strings. -/
def StoreWF (s : Store) : Prop := ∀ kv ∈ s, ∀ seg ∈ kv.1, goodSeg seg

instance (s : Store) : Decidable (StoreWF s) := by
  unfold StoreWF
  infer_instance

/-- Depth-first visiting order on paths: a proper prefix (a parent) comes
first, and at the first differing segment the code-point order of the segment
names decides — the order in which a sorted pre-order traversal emits
paths. -/
def pathLtB : List String → List String → Bool
  | _, [] => false
  | [], _ :: _ => true
  | a :: as, b :: bs =>
      if strLt a b then true
      else if strLt b a then false
      else pathLtB as bs

/-! Order-theoretic facts about the code-point comparison, needed to reason
about `sorted`. -/

theorem charListLt_irrefl (as : List Char) : charListLt as as = false := by
  induction as with
  | nil => rfl
  | cons a as ih => simp [charListLt, ih]

theorem charListLt_asymm {as bs : List Char} (h : charListLt as bs = true) :
    charListLt bs as = false := by
  induction as generalizing bs with
  | nil =>
      cases bs with
      | nil => simpa [charListLt] using h
      | cons b bs => rfl
  | cons a as ih =>
      cases bs with
      | nil => simp [charListLt] at h
      | cons b bs =>
          by_cases hab : a.toNat < b.toNat
          · have hba : ¬ b.toNat < a.toNat := Nat.lt_asymm hab
            simp [charListLt, hab, hba, Nat.ne_of_gt hab]
          · by_cases hba : b.toNat < a.toNat
            · simp [charListLt, hab, hba] at h
            · have := ih (show charListLt as bs = true by simpa [charListLt, hab, hba] using h)
              simp [charListLt, hab, hba, this]

theorem charListLt_conn {as bs : List Char} (h1 : charListLt as bs = false)
    (h2 : charListLt bs as = false) : as = bs := by
  induction as generalizing bs with
  | nil =>
      cases bs with
      | nil => rfl
      | cons b bs => simp [charListLt] at h1
  | cons a as ih =>
      cases bs with
      | nil => simp [charListLt] at h2
      | cons b bs =>
          by_cases hab : a.toNat < b.toNat
          · simp [charListLt, hab] at h1
          · by_cases hba : b.toNat < a.toNat
            · simp [charListLt, hba, Nat.lt_asymm hba] at h2
            · have hd : a = b := Char.eq_of_val_eq (UInt32.ext
                (Nat.le_antisymm (Nat.le_of_not_lt hba) (Nat.le_of_not_lt hab)))
              have ht : as = bs := by
                apply ih
                · simpa [charListLt, hab, hba] using h1
                · simpa [charListLt, hab, Nat.lt_asymm, hba] using h2
              rw [hd, ht]

theorem charListLt_trans {as bs cs : List Char} (h1 : charListLt as bs = true)
    (h2 : charListLt bs cs = true) : charListLt as cs = true := by
  induction as generalizing bs cs with
  | nil =>
      cases cs with
      | nil =>
          cases bs with
          | nil => exact h1
          | cons b bs => simp [charListLt] at h2
      | cons c cs => rfl
  | cons a as ih =>
      cases bs with
      | nil => simp [charListLt] at h1
      | cons b bs =>
          cases cs with
          | nil => simp [charListLt] at h2
          | cons c cs =>
              by_cases hab : a.toNat < b.toNat
              · by_cases hbc : b.toNat < c.toNat
                · have : a.toNat < c.toNat := Nat.lt_trans hab hbc
                  simp [charListLt, this]
                · by_cases hcb : c.toNat < b.toNat
                  · simp [charListLt, hbc, hcb] at h2
                  · have hbceq : b.toNat = c.toNat :=
                      Nat.le_antisymm (Nat.le_of_not_lt hcb) (Nat.le_of_not_lt hbc)
                    have : a.toNat < c.toNat := hbceq ▸ hab
                    simp [charListLt, this]
              · by_cases hba : b.toNat < a.toNat
                · simp [charListLt, hab, hba] at h1
                · have habeq : a.toNat = b.toNat :=
                    Nat.le_antisymm (Nat.le_of_not_lt hba) (Nat.le_of_not_lt hab)
                  by_cases hbc : b.toNat < c.toNat
                  · have : a.toNat < c.toNat := habeq ▸ hbc
                    simp [charListLt, this]
                  · by_cases hcb : c.toNat < b.toNat
                    · simp [charListLt, hbc, hcb] at h2
                    · have h1' := by simpa [charListLt, hab, hba] using h1
                      have h2' := by simpa [charListLt, hbc, hcb] using h2
                      have hac : ¬ a.toNat < c.toNat := by
                        rw [habeq]; exact hbc
                      have hca : ¬ c.toNat < a.toNat := by
                        rw [habeq]; exact hcb
                      simp [charListLt, hac, hca, ih h1' h2']

theorem string_ext {a b : String} (h : a.data = b.data) : a = b := by
  cases a; cases b; cases h; rfl

theorem strLt_conn {a b : String} (h1 : strLt a b = false)
    (h2 : strLt b a = false) : a = b :=
  string_ext (charListLt_conn h1 h2)

instance : IsTotal String (fun a b => strLe a b = true) :=
  ⟨by
    intro a b
    by_cases h : charListLt b.data a.data = true
    · right
      simp [strLe, strLt, charListLt_asymm h]
    · left
      simp [strLe, strLt]
      simpa using h⟩

instance : IsTrans String (fun a b => strLe a b = true) :=
  ⟨by
    intro a b c h1 h2
    simp only [strLe, strLt, Bool.not_eq_true'] at h1 h2 ⊢
    by_contra hac
    have hac' : charListLt c.data a.data = true := by
      revert hac
      cases charListLt c.data a.data <;> simp
    by_cases hab : charListLt a.data b.data = true
    · have := charListLt_trans hac' hab
      rw [this] at h2
      exact Bool.noConfusion h2
    · have hab' : charListLt a.data b.data = false := by
        revert hab
        cases charListLt a.data b.data <;> simp
      have : a = b := strLt_conn hab' h1
      subst this
      rw [hac'] at h2
      exact Bool.noConfusion h2⟩

theorem sorted_lt_of_sorted_le_nodup {l : List String}
    (hs : List.Sorted (fun a b => strLe a b = true) l) (hn : l.Nodup) :
    List.Sorted (fun a b => strLt a b = true) l := by
  have := List.Pairwise.and hs hn
  refine this.imp ?h
  rintro a b ⟨hle, hne⟩
  simp only [strLe, Bool.not_eq_true'] at hle
  by_cases h : strLt a b = true
  · exact h
  · have h' : strLt a b = false := by
      revert h
      cases strLt a b <;> simp
    exact absurd (strLt_conn h' hle) hne

theorem foldl_count {α : Type} (l : List α) (c : Nat) :
    l.foldl (fun c _ => c + 1) c = c + l.length := by
  induction l generalizing c with
  | nil => simp
  | cons a l ih => simp [List.foldl, ih, Nat.add_assoc, Nat.add_comm 1]

theorem listdir_nodup (s : Store) (p : List String) : (listdir s p).Nodup :=
  List.nodup_dedup _

theorem membersAt_nodup (s : Store) (p : List String) : (membersAt s p).Nodup := by
  have h1 : (List.insertionSort (fun a b => strLe a b = true) (listdir s p)).Nodup :=
    ((List.perm_insertionSort _ _).nodup_iff).mpr (listdir_nodup s p)
  exact h1.filter _

theorem membersAt_sorted (s : Store) (p : List String) :
    List.Sorted (fun a b => strLt a b = true) (membersAt s p) := by
  have h1 : List.Sorted (fun a b => strLe a b = true)
      (List.insertionSort (fun a b => strLe a b = true) (listdir s p)) :=
    List.sorted_insertionSort _ _
  have h2 : List.Sorted (fun a b => strLe a b = true) (membersAt s p) :=
    List.Pairwise.filter _ h1
  exact sorted_lt_of_sorted_le_nodup h2 (membersAt_nodup s p)

theorem mem_membersAt {s : Store} {p : List String} {k : String} :
    k ∈ membersAt s p ↔
      k ∈ listdir s p ∧
        (contains_array s (p ++ [k]) = true ∨ contains_group s (p ++ [k]) = true) := by
  unfold membersAt
  rw [List.mem_filter, (List.perm_insertionSort _ _).mem_iff]
  simp [Bool.or_eq_true]

/-- Claim C5: iterating a group handle yields exactly the immediate child
names of its prefix that classify as an array or a group (stray names are
silently excluded), in lexicographically sorted order, and `__len__` equals
the count of names so yielded. -/
theorem iter_members_sorted_classified (g : ZGroup) (s : Store) :
    List.Sorted (fun a b => strLt a b = true) (g.memberNames s)
  ∧ (∀ k, k ∈ g.memberNames s ↔
      k ∈ listdir s g.path ∧
        (contains_array s (g.path ++ [k]) = true ∨
         contains_group s (g.path ++ [k]) = true))
  ∧ g.size s = (g.memberNames s).length := by
  refine ⟨membersAt_sorted s g.path, fun k => mem_membersAt, ?h⟩
  unfold ZGroup.size
  exact (foldl_count _ 0).trans (Nat.zero_add _)

theorem length_filter_or_split (l : List String) (f h : String → Bool)
    (hd : ∀ x, ¬ (f x = true ∧ h x = true)) :
    (l.filter (fun k => f k || h k)).length =
      (l.filter (fun k => h k)).length + (l.filter (fun k => f k)).length := by
  induction l with
  | nil => rfl
  | cons a l ih =>
      cases hf : f a with
      | true =>
          have hh : h a = false := by
            have := hd a
            revert this
            rw [hf]
            cases h a <;> simp
          simp [List.filter_cons, hf, hh]
          omega
      | false =>
          cases hh : h a with
          | true =>
              simp [List.filter_cons, hf, hh]
              omega
          | false =>
              simp [List.filter_cons, hf, hh]
              exact ih

theorem group_keys_sorted (g : ZGroup) (s : Store) :
    List.Sorted (fun a b => strLt a b = true) (g.group_keys s) := by
  have h1 : List.Sorted (fun a b => strLe a b = true)
      (List.insertionSort (fun a b => strLe a b = true) (listdir s g.path)) :=
    List.sorted_insertionSort _ _
  have hn : (List.insertionSort (fun a b => strLe a b = true) (listdir s g.path)).Nodup :=
    ((List.perm_insertionSort _ _).nodup_iff).mpr (listdir_nodup s g.path)
  exact sorted_lt_of_sorted_le_nodup (List.Pairwise.filter _ h1) (hn.filter _)

theorem array_keys_sorted (g : ZGroup) (s : Store) :
    List.Sorted (fun a b => strLt a b = true) (g.array_keys s) := by
  have h1 : List.Sorted (fun a b => strLe a b = true)
      (List.insertionSort (fun a b => strLe a b = true) (listdir s g.path)) :=
    List.sorted_insertionSort _ _
  have hn : (List.insertionSort (fun a b => strLe a b = true) (listdir s g.path)).Nodup :=
    ((List.perm_insertionSort _ _).nodup_iff).mpr (listdir_nodup s g.path)
  exact sorted_lt_of_sorted_le_nodup (List.Pairwise.filter _ h1) (hn.filter _)

/-- Claim C10: over a store in which no path carries both sentinels, the member
iterator is the disjoint union of `group_keys()` and `array_keys()`: the three
sequences are each lexicographically sorted, every member name lies in exactly
one of the two typed sequences, and the counts add up. -/
theorem members_partition_group_array (g : ZGroup) (s : Store)
    (hsep : ∀ p, ¬ (contains_array s p = true ∧ contains_group s p = true)) :
    (∀ k, k ∈ g.memberNames s ↔ (k ∈ g.group_keys s ∨ k ∈ g.array_keys s))
  ∧ (∀ k, ¬ (k ∈ g.group_keys s ∧ k ∈ g.array_keys s))
  ∧ List.Sorted (fun a b => strLt a b = true) (g.memberNames s)
  ∧ List.Sorted (fun a b => strLt a b = true) (g.group_keys s)
  ∧ List.Sorted (fun a b => strLt a b = true) (g.array_keys s)
  ∧ (g.memberNames s).length = (g.group_keys s).length + (g.array_keys s).length := by
  refine ⟨?hmem, ?hdisj, membersAt_sorted s g.path, group_keys_sorted g s,
    array_keys_sorted g s, ?hlen⟩
  case hmem =>
    intro k
    unfold ZGroup.memberNames membersAt ZGroup.group_keys ZGroup.array_keys
    simp only [List.mem_filter, Bool.or_eq_true]
    constructor
    · rintro ⟨hk, hc | hc⟩
      · exact Or.inr ⟨hk, hc⟩
      · exact Or.inl ⟨hk, hc⟩
    · rintro (⟨hk, hc⟩ | ⟨hk, hc⟩)
      · exact ⟨hk, Or.inr hc⟩
      · exact ⟨hk, Or.inl hc⟩
  case hdisj =>
    rintro k ⟨hg, ha⟩
    unfold ZGroup.group_keys at hg
    unfold ZGroup.array_keys at ha
    rw [List.mem_filter] at hg ha
    exact hsep (g.path ++ [k]) ⟨ha.2, hg.2⟩
  case hlen =>
    unfold ZGroup.memberNames membersAt ZGroup.group_keys ZGroup.array_keys
    exact length_filter_or_split _ _ _ (fun x => hsep (g.path ++ [x]))

/-- Claim C9: constructing a group handle fails with `ContainsArrayError` when
the path denotes an array, fails with `GroupNotFoundError` when no group
sentinel key exists at the path, and succeeds only when the sentinel is
present and the path is not an array.  The constructor's type carries no
output store: construction never writes (a handle is a view, never an
implicit creator). -/
theorem group_init_guards (s : Store) (path : String) (ro sy : Bool) :
    (contains_array s (normalize_storage_path path) = true →
        ZGroup.init s path ro sy = .error .ContainsArrayError)
  ∧ (contains_array s (normalize_storage_path path) = false →
      s.lookupKey (normalize_storage_path path ++ [group_meta_key]) = none →
        ZGroup.init s path ro sy = .error .GroupNotFoundError)
  ∧ (contains_array s (normalize_storage_path path) = false →
      s.lookupKey (normalize_storage_path path ++ [group_meta_key]) =
          some .groupMeta →
        ZGroup.init s path ro sy = .ok ⟨normalize_storage_path path, ro, sy⟩)
  ∧ (∀ g, ZGroup.init s path ro sy = .ok g →
        contains_array s (normalize_storage_path path) = false ∧
        contains_group s (normalize_storage_path path) = true ∧
        g = ⟨normalize_storage_path path, ro, sy⟩) := by
  refine ⟨?h1, ?h2, ?h3, ?h4⟩
  case h1 =>
    intro h
    simp [ZGroup.init, h]
  case h2 =>
    intro h1 h2
    simp [ZGroup.init, h1, h2]
  case h3 =>
    intro h1 h2
    simp [ZGroup.init, h1, h2, decode_group_metadata]
  case h4 =>
    intro g hg
    unfold ZGroup.init at hg
    cases hca : contains_array s (normalize_storage_path path) with
    | true => simp [hca] at hg
    | false =>
        cases hl : s.lookupKey (normalize_storage_path path ++ [group_meta_key]) with
        | none => simp [hca, hl] at hg
        | some v =>
            cases v with
            | groupMeta =>
                simp [hca, hl, decode_group_metadata] at hg
                exact ⟨rfl, by simp [contains_group, hl], hg.symm⟩
            | arrayMeta shape d => simp [hca, hl, decode_group_metadata] at hg
            | other payload => simp [hca, hl, decode_group_metadata] at hg

/-- Claim C6: on a read-only handle every mutating operation fails with
`ReadOnlyError`, returning the store byte-for-byte unchanged (and performing
no synchronizer action). -/
theorem read_only_mutations_fail (g : ZGroup) (s : Store)
    (h : g.read_only = true) :
    (∀ name ow, g.create_group s name ow = (s, .error .ReadOnlyError, []))
  ∧ (∀ name ow, g.require_group s name ow = (s, .error .ReadOnlyError, []))
  ∧ (∀ name shape dtype ow,
      g.create_dataset s name shape dtype ow = (s, .error .ReadOnlyError, []))
  ∧ (∀ name shape dtype exact,
      g.require_dataset s name shape dtype exact = (s, .error .ReadOnlyError, []))
  ∧ (∀ name shape dtype ow,
      g.create s name shape dtype ow = (s, .error .ReadOnlyError, []))
  ∧ (∀ name shape dtype ow,
      g.empty s name shape dtype ow = (s, .error .ReadOnlyError, []))
  ∧ (∀ name shape dtype ow,
      g.zeros s name shape dtype ow = (s, .error .ReadOnlyError, []))
  ∧ (∀ name shape dtype ow,
      g.ones s name shape dtype ow = (s, .error .ReadOnlyError, []))
  ∧ (∀ name shape dtype ow,
      g.full s name shape dtype ow = (s, .error .ReadOnlyError, []))
  ∧ (∀ name dshape ddtype ow,
      g.array s name dshape ddtype ow = (s, .error .ReadOnlyError, []))
  ∧ (∀ name data, g.empty_like s name data = (s, .error .ReadOnlyError, []))
  ∧ (∀ name data, g.zeros_like s name data = (s, .error .ReadOnlyError, []))
  ∧ (∀ name data, g.ones_like s name data = (s, .error .ReadOnlyError, []))
  ∧ (∀ name data, g.full_like s name data = (s, .error .ReadOnlyError, []))
  ∧ (∀ item dshape ddtype,
      g.setitem s item dshape ddtype = (s, .error .ReadOnlyError, []))
  ∧ (∀ item, g.delitem s item = (s, .error .ReadOnlyError, [])) := by
  refine ⟨fun _ _ => ?_, fun _ _ => ?_, fun _ _ _ _ => ?_, fun _ _ _ _ => ?_,
    fun _ _ _ _ => ?_, fun _ _ _ _ => ?_, fun _ _ _ _ => ?_, fun _ _ _ _ => ?_,
    fun _ _ _ _ => ?_, fun _ _ _ _ => ?_, fun _ _ => ?_, fun _ _ => ?_,
    fun _ _ => ?_, fun _ _ => ?_, fun _ _ _ => ?_, fun _ => ?_⟩ <;>
    simp [ZGroup.create_group, ZGroup.require_group, ZGroup.create_dataset,
      ZGroup.require_dataset, ZGroup.create, ZGroup.empty, ZGroup.zeros,
      ZGroup.ones, ZGroup.full, ZGroup.array, ZGroup.empty_like,
      ZGroup.zeros_like, ZGroup.ones_like, ZGroup.full_like, ZGroup.setitem,
      ZGroup.delitem, ZGroup.write_op, h]

theorem write_op_proj {α : Type} (g : ZGroup) (s : Store)
    (f : Store → Store × Except ZErr α) (hro : g.read_only = false) :
    (g.write_op s f).1 = (f s).1 ∧ (g.write_op s f).2.1 = (f s).2 := by
  cases hsy : g.synced <;> simp [ZGroup.write_op, hro, hsy]

/-- Claim C7: for a writable handle with a synchronizer, the guard brackets the
guarded operation between acquiring and releasing the lock named by the fixed
root group metadata key — the same constant key for every operation and item
name, never one derived from the mutated subpath — and the release event is
emitted unconditionally, also when the guarded operation fails; with no
synchronizer the operation runs unguarded. -/
theorem write_op_lock_discipline (g : ZGroup) (s : Store)
    (hro : g.read_only = false) :
    (g.synced = true → ∀ (α : Type) (f : Store → Store × Except ZErr α),
        g.write_op s f = ((f s).1, (f s).2,
          [SyncEvent.acquire group_meta_key, SyncEvent.release group_meta_key]))
  ∧ (g.synced = false → ∀ (α : Type) (f : Store → Store × Except ZErr α),
        g.write_op s f = ((f s).1, (f s).2, []))
  ∧ (∀ (α : Type) (f : Store → Store × Except ZErr α) (k : String),
        SyncEvent.acquire k ∈ (g.write_op s f).2.2 → k = group_meta_key)
  ∧ (g.synced = true → ∀ (α : Type) (f : Store → Store × Except ZErr α) (e : ZErr),
        (f s).2 = .error e →
        (g.write_op s f).2.2 =
          [SyncEvent.acquire group_meta_key, SyncEvent.release group_meta_key])
  ∧ (g.synced = true → ∀ item, (g.delitem s item).2.2 =
        [SyncEvent.acquire group_meta_key, SyncEvent.release group_meta_key])
  ∧ (g.synced = true → ∀ name ow, (g.create_group s name ow).2.2 =
        [SyncEvent.acquire group_meta_key, SyncEvent.release group_meta_key])
  ∧ (g.synced = true → ∀ name shape dtype exact,
        (g.require_dataset s name shape dtype exact).2.2 =
        [SyncEvent.acquire group_meta_key, SyncEvent.release group_meta_key])
  ∧ (g.synced = false → ∀ item, (g.delitem s item).2.2 = []) := by
  refine ⟨?h1, ?h2, ?h3, ?h4, ?h5, ?h6, ?h7, ?h8⟩
  case h1 =>
    intro hsy α f
    simp [ZGroup.write_op, hro, hsy]
  case h2 =>
    intro hsy α f
    simp [ZGroup.write_op, hro, hsy]
  case h3 =>
    intro α f k hk
    cases hsy : g.synced <;> simp [ZGroup.write_op, hro, hsy] at hk
    exact hk
  case h4 =>
    intro hsy α f e _
    simp [ZGroup.write_op, hro, hsy]
  case h5 =>
    intro hsy item
    simp [ZGroup.delitem, ZGroup.write_op, hro, hsy]
  case h6 =>
    intro hsy name ow
    simp [ZGroup.create_group, ZGroup.write_op, hro, hsy]
  case h7 =>
    intro hsy name shape dtype exact
    simp [ZGroup.require_dataset, ZGroup.write_op, hro, hsy]
  case h8 =>
    intro hsy item
    simp [ZGroup.delitem, ZGroup.write_op, hro, hsy]

theorem lookupKey_rmdir_below (s : Store) (p k : List String)
    (h1 : p <+: k) (h2 : k ≠ p) : (rmdir s p).lookupKey k = none := by
  induction s with
  | nil => rfl
  | cons kv rest ih =>
      by_cases hpk : p <+: kv.1
      · by_cases hkp : kv.1 = p
        · have hne : p ≠ k := fun hpe => h2 hpe.symm
          simpa [rmdir, List.filter_cons, hpk, hkp, Store.lookupKey, hne] using ih
        · simpa [rmdir, List.filter_cons, hpk, hkp] using ih
      · have hne : kv.1 ≠ k := fun he => hpk (he.symm ▸ h1)
        simpa [rmdir, List.filter_cons, hpk, Store.lookupKey, hne] using ih

theorem contains_rmdir_below (s : Store) (p q : List String) (h : p <+: q) :
    contains_array (rmdir s p) q = false ∧ contains_group (rmdir s p) q = false := by
  have hlen : p.length ≤ q.length := h.length_le
  constructor
  · unfold contains_array
    rw [lookupKey_rmdir_below s p (q ++ [array_meta_key])
      (h.trans (List.prefix_append q [array_meta_key]))
      (by
        intro he
        have := congrArg List.length he
        simp at this
        omega)]
    rfl
  · unfold contains_group
    rw [lookupKey_rmdir_below s p (q ++ [group_meta_key])
      (h.trans (List.prefix_append q [group_meta_key]))
      (by
        intro he
        have := congrArg List.length he
        simp at this
        omega)]
    rfl

/-- Claim C8: on a writable handle, `__delitem__` removes the entire subtree
rooted at the resolved path when that path classifies as a group or an array —
every key strictly below the path is gone and no descendant path classifies as
an array or a group afterwards — and otherwise fails with `NotFoundError`,
leaving the store unchanged. -/
theorem delitem_removes_subtree (g : ZGroup) (s : Store) (item : String)
    (hro : g.read_only = false) :
    ((contains_array s (g.item_path item) = true ∨
      contains_group s (g.item_path item) = true) →
        (g.delitem s item).1 = rmdir s (g.item_path item)
      ∧ (g.delitem s item).2.1 = .ok ()
      ∧ (∀ k, g.item_path item <+: k → k ≠ g.item_path item →
            ((g.delitem s item).1).lookupKey k = none)
      ∧ (∀ q, g.item_path item <+: q →
            contains_array (g.delitem s item).1 q = false ∧
            contains_group (g.delitem s item).1 q = false))
  ∧ (contains_array s (g.item_path item) = false →
     contains_group s (g.item_path item) = false →
        (g.delitem s item).1 = s ∧
        (g.delitem s item).2.1 = .error .NotFoundError) := by
  obtain ⟨hst, hres⟩ :=
    write_op_proj g s (fun st => g.delitem_nosync st item) hro
  have hdel : g.delitem s item = g.write_op s (fun st => g.delitem_nosync st item) := rfl
  constructor
  · intro hc
    have hcond : (contains_array s (g.item_path item) ||
        contains_group s (g.item_path item)) = true := by
      rcases hc with hc | hc <;> simp [hc]
    have hns : g.delitem_nosync s item = (rmdir s (g.item_path item), .ok ()) := by
      unfold ZGroup.delitem_nosync
      simp [hcond]
    rw [hdel]
    rw [hns] at hst hres
    refine ⟨hst, hres, ?hk, ?hq⟩
    case hk =>
      intro k hk1 hk2
      rw [hst]
      exact lookupKey_rmdir_below s (g.item_path item) k hk1 hk2
    case hq =>
      intro q hq1
      rw [hst]
      exact contains_rmdir_below s (g.item_path item) q hq1
  · intro hca hcg
    have hns : g.delitem_nosync s item = (s, .error .NotFoundError) := by
      unfold ZGroup.delitem_nosync
      simp [hca, hcg]
    rw [hdel]
    rw [hns] at hst hres
    exact ⟨hst, hres⟩

theorem can_cast_refl (d : Dtype) : can_cast d d = true := by
  cases d <;> rfl

theorem lookupKey_insertKey_self (s : Store) (k : List String) (v : Value) :
    (s.insertKey k v).lookupKey k = some v := by
  simp [Store.insertKey, Store.lookupKey]

/-- Claim C1 (counterexample): the claim as stated fails on the code.  At a
path holding an array of dtype `f8`, a `require_dataset(exact=false)` request
for dtype `i4` succeeds even though the stored dtype `f8` is not safely
convertible to the requested `i4` — the code checks `np.can_cast(requested,
stored)`, the opposite direction from the claim. -/
theorem require_dataset_cast_direction_cex :
    can_cast Dtype.f8 Dtype.i4 = false ∧
    (ZGroup.require_dataset ⟨[], false, false⟩
        ([(["a", array_meta_key], Value.arrayMeta [100] Dtype.f8)] : Store)
        "a" [100] (some Dtype.i4) false).2.1 =
      .ok ⟨["a"], [100], Dtype.f8, false⟩ :=
  ⟨rfl, rfl⟩

/-- Claim C1 (amended): for a writable group handle and a name at which an
array with matching shape already exists, `require_dataset(exact=false)`
succeeds and returns a handle to the existing array if and only if the
requested dtype is safely convertible to the stored element type
(`np.can_cast(requested, stored)`), and fails with `TypeMismatchError` when it
is not; the store is unchanged either way. -/
theorem require_dataset_checks_requested_into_stored (g : ZGroup) (s : Store)
    (name : String) (ashape : List Nat) (adtype d : Dtype)
    (hro : g.read_only = false)
    (hmeta : s.lookupKey (g.item_path name ++ [array_meta_key]) =
      some (.arrayMeta ashape adtype)) :
    (can_cast d adtype = true →
        (g.require_dataset s name ashape (some d) false).2.1 =
          .ok ⟨g.item_path name, ashape, adtype, g.read_only⟩)
  ∧ (can_cast d adtype = false →
        (g.require_dataset s name ashape (some d) false).2.1 =
          .error .TypeMismatchError)
  ∧ (g.require_dataset s name ashape (some d) false).1 = s := by
  have hca : contains_array s (g.item_path name) = true := by
    simp [contains_array, hmeta]
  have hm : getArrayMeta s (g.item_path name) = some (ashape, adtype) := by
    simp [getArrayMeta, hmeta]
  obtain ⟨hst, hres⟩ :=
    write_op_proj g s (fun st => g.require_dataset_nosync st name ashape (some d) false) hro
  have hrd : g.require_dataset s name ashape (some d) false =
      g.write_op s (fun st => g.require_dataset_nosync st name ashape (some d) false) := rfl
  refine ⟨?h1, ?h2, ?h3⟩
  case h1 =>
    intro hcc
    rw [hrd, hres]
    simp [ZGroup.require_dataset_nosync, hca, hm, hcc, npDtype]
  case h2 =>
    intro hcc
    rw [hrd, hres]
    simp [ZGroup.require_dataset_nosync, hca, hm, hcc, npDtype]
  case h3 =>
    rw [hrd, hst]
    unfold ZGroup.require_dataset_nosync
    simp only [hca, if_true, hm]
    by_cases hcc : can_cast (npDtype (some d)) adtype = true <;>
      simp [hcc]

/-- Claim C1 (amended) witness at a concrete input: requesting `i4` over a
stored `f8` array succeeds because `np.can_cast(i4, f8)` holds. -/
theorem require_dataset_checks_requested_into_stored_witness :
    can_cast Dtype.i4 Dtype.f8 = true ∧
    (ZGroup.require_dataset ⟨[], false, false⟩
        ([(["a", array_meta_key], Value.arrayMeta [100] Dtype.f8)] : Store)
        "a" [100] (some Dtype.i4) false).2.1 =
      .ok ⟨["a"], [100], Dtype.f8, false⟩ :=
  ⟨rfl,
    (require_dataset_checks_requested_into_stored ⟨[], false, false⟩
      ([(["a", array_meta_key], Value.arrayMeta [100] Dtype.f8)] : Store)
      "a" [100] Dtype.f8 Dtype.i4 rfl rfl).1 rfl⟩

/-- Claim C2: `require_dataset` is idempotent — a first call at a free path
creates the array; a second call with identical shape and dtype returns a
handle to the same underlying array with the store unchanged (no
re-creation); a call with a mismatched shape instead fails with
`TypeMismatchError`, again leaving the store unchanged. -/
theorem require_dataset_idempotent (g : ZGroup) (s : Store) (name : String)
    (shape shape2 : List Nat) (dtype : Option Dtype) (exact : Bool)
    (hro : g.read_only = false)
    (hca : contains_array s (g.item_path name) = false)
    (hcg : contains_group s (g.item_path name) = false) :
    ((g.require_dataset s name shape dtype exact).2.1 =
        .ok ⟨g.item_path name, shape, npDtype dtype, false⟩)
  ∧ ((g.require_dataset ((g.require_dataset s name shape dtype exact).1)
        name shape dtype exact).2.1 =
        .ok ⟨g.item_path name, shape, npDtype dtype, g.read_only⟩)
  ∧ ((g.require_dataset ((g.require_dataset s name shape dtype exact).1)
        name shape dtype exact).1 =
        (g.require_dataset s name shape dtype exact).1)
  ∧ (shape2 ≠ shape →
        (g.require_dataset ((g.require_dataset s name shape dtype exact).1)
          name shape2 dtype exact).2.1 = .error .TypeMismatchError
      ∧ (g.require_dataset ((g.require_dataset s name shape dtype exact).1)
          name shape2 dtype exact).1 =
          (g.require_dataset s name shape dtype exact).1) := by
  obtain ⟨hst, hres⟩ :=
    write_op_proj g s (fun st => g.require_dataset_nosync st name shape dtype exact) hro
  have hrd : g.require_dataset s name shape dtype exact =
      g.write_op s (fun st => g.require_dataset_nosync st name shape dtype exact) := rfl
  have hn1 : g.require_dataset_nosync s name shape dtype exact =
      (s.insertKey (g.item_path name ++ [array_meta_key])
        (.arrayMeta shape (npDtype dtype)),
       .ok ⟨g.item_path name, shape, npDtype dtype, false⟩) := by
    unfold ZGroup.require_dataset_nosync ZGroup.create_dataset_nosync
    simp [hca, init_array, hcg]
  have hs2 : (g.require_dataset s name shape dtype exact).1 =
      s.insertKey (g.item_path name ++ [array_meta_key])
        (.arrayMeta shape (npDtype dtype)) := by
    rw [hrd, hst, hn1]
  have hmeta2 : ((g.require_dataset s name shape dtype exact).1).lookupKey
      (g.item_path name ++ [array_meta_key]) =
      some (.arrayMeta shape (npDtype dtype)) := by
    rw [hs2]
    exact lookupKey_insertKey_self _ _ _
  have hca2 : contains_array ((g.require_dataset s name shape dtype exact).1)
      (g.item_path name) = true := by
    simp [contains_array, hmeta2]
  have hm2 : getArrayMeta ((g.require_dataset s name shape dtype exact).1)
      (g.item_path name) = some (shape, npDtype dtype) := by
    simp [getArrayMeta, hmeta2]
  obtain ⟨hst2, hres2⟩ :=
    write_op_proj g ((g.require_dataset s name shape dtype exact).1)
      (fun st => g.require_dataset_nosync st name shape dtype exact) hro
  obtain ⟨hst3, hres3⟩ :=
    write_op_proj g ((g.require_dataset s name shape dtype exact).1)
      (fun st => g.require_dataset_nosync st name shape2 dtype exact) hro
  have hn2 : g.require_dataset_nosync
      ((g.require_dataset s name shape dtype exact).1) name shape dtype exact =
      ((g.require_dataset s name shape dtype exact).1,
       .ok ⟨g.item_path name, shape, npDtype dtype, g.read_only⟩) := by
    unfold ZGroup.require_dataset_nosync
    cases exact <;> simp [hca2, hm2, can_cast_refl]
  refine ⟨?h1, ?h2, ?h3, ?h4⟩
  case h1 =>
    rw [hrd, hres, hn1]
  case h2 =>
    show (g.write_op _ _).2.1 = _
    rw [hres2, hn2]
  case h3 =>
    show (g.write_op _ _).1 = _
    rw [hst2, hn2]
  case h4 =>
    intro hne
    have hn3 : g.require_dataset_nosync
        ((g.require_dataset s name shape dtype exact).1) name shape2 dtype exact =
        ((g.require_dataset s name shape dtype exact).1,
         .error .TypeMismatchError) := by
      unfold ZGroup.require_dataset_nosync
      simp [hca2, hm2, hne]
    constructor
    · show (g.write_op _ _).2.1 = _
      rw [hres3, hn3]
    · show (g.write_op _ _).1 = _
      rw [hst3, hn3]

/-- Claim C2 witness: a fresh path in an empty store; the first call creates
the array with the requested shape and dtype. -/
theorem require_dataset_idempotent_witness :
    (ZGroup.require_dataset ⟨[], false, false⟩ ([] : Store) "a" [2, 3]
        (some Dtype.i2) false).2.1 =
      .ok ⟨["a"], [2, 3], Dtype.i2, false⟩ :=
  (require_dataset_idempotent ⟨[], false, false⟩ ([] : Store) "a" [2, 3] [9]
    (some Dtype.i2) false rfl rfl rfl).1

/-- Claim C6 witness: deleting through a read-only root handle fails with
`ReadOnlyError` and leaves the (empty) store untouched. -/
theorem read_only_mutations_fail_witness :
    ZGroup.delitem ⟨[], true, false⟩ ([] : Store) "x" =
      (([] : Store), .error .ReadOnlyError, []) :=
  (read_only_mutations_fail ⟨[], true, false⟩ ([] : Store) rfl).2.2.2.2.2.2.2.2.2.2.2.2.2.2.2 "x"

/-- Claim C7 witness: a synchronized writable handle brackets `__delitem__`
between acquire and release of the fixed root metadata lock. -/
theorem write_op_lock_discipline_witness :
    (ZGroup.delitem ⟨[], false, true⟩ ([] : Store) "x").2.2 =
      [SyncEvent.acquire group_meta_key, SyncEvent.release group_meta_key] :=
  (write_op_lock_discipline ⟨[], false, true⟩ ([] : Store) rfl).2.2.2.2.1 rfl "x"

/-- Claim C8 witness: deleting the group `"a"` also removes the descendant
array at `"a/b"` — neither sentinel classifies there afterwards. -/
theorem delitem_removes_subtree_witness :
    contains_array
        ((ZGroup.delitem ⟨[], false, false⟩
          ([(["a", ".zgroup"], Value.groupMeta),
            (["a", "b", ".zarray"], Value.arrayMeta [1] Dtype.f8),
            ([".zgroup"], Value.groupMeta)] : Store) "a").1) ["a", "b"] = false ∧
    contains_group
        ((ZGroup.delitem ⟨[], false, false⟩
          ([(["a", ".zgroup"], Value.groupMeta),
            (["a", "b", ".zarray"], Value.arrayMeta [1] Dtype.f8),
            ([".zgroup"], Value.groupMeta)] : Store) "a").1) ["a", "b"] = false :=
  ((delitem_removes_subtree ⟨[], false, false⟩
      ([(["a", ".zgroup"], Value.groupMeta),
        (["a", "b", ".zarray"], Value.arrayMeta [1] Dtype.f8),
        ([".zgroup"], Value.groupMeta)] : Store) "a" rfl).1
    (Or.inr rfl)).2.2.2 ["a", "b"] ⟨["b"], rfl⟩

/-- Claim C9 witness: a store holding the root group sentinel yields a root
handle. -/
theorem group_init_guards_witness :
    ZGroup.init ([([".zgroup"], Value.groupMeta)] : Store) "" false false =
      .ok ⟨[], false, false⟩ :=
  (group_init_guards ([([".zgroup"], Value.groupMeta)] : Store) "" false false).2.2.1
    rfl rfl

/-- Claim C10 witness: over a store holding one group `"g"` and one array
`"arr"` (no path carries both sentinels), the member count is the sum of the
typed counts. -/
theorem members_partition_group_array_witness :
    (ZGroup.memberNames ⟨[], false, false⟩
        ([(["g", ".zgroup"], Value.groupMeta),
          (["arr", ".zarray"], Value.arrayMeta [1] Dtype.f8)] : Store)).length =
      (ZGroup.group_keys ⟨[], false, false⟩
        ([(["g", ".zgroup"], Value.groupMeta),
          (["arr", ".zarray"], Value.arrayMeta [1] Dtype.f8)] : Store)).length +
      (ZGroup.array_keys ⟨[], false, false⟩
        ([(["g", ".zgroup"], Value.groupMeta),
          (["arr", ".zarray"], Value.arrayMeta [1] Dtype.f8)] : Store)).length :=
  (members_partition_group_array ⟨[], false, false⟩
    ([(["g", ".zgroup"], Value.groupMeta),
      (["arr", ".zarray"], Value.arrayMeta [1] Dtype.f8)] : Store)
    (by
      intro p h
      obtain ⟨ha, hg⟩ := h
      simp only [contains_array, array_meta_key, Store.lookupKey] at ha
      split at ha
      · next heq =>
          have hlast := congrArg List.getLast? heq
          simp [List.getLast?_concat] at hlast
      · split at ha
        · next heq =>
            have hp : p = ["arr"] := by
              have hd := congrArg List.dropLast heq
              simpa [List.dropLast_concat] using hd.symm
            subst hp
            revert hg
            decide
        · simp at ha)).2.2.2.2.2

theorem runVisitor_cons_none {S V : Type} (fn : S → Node → S × Option V)
    (n : Node) (l : List Node) (st st2 : S) (h : fn st n = (st2, none)) :
    runVisitor fn (n :: l) st = runVisitor fn l st2 := by
  conv_lhs => unfold runVisitor
  rw [h]

theorem runVisitor_cons_some {S V : Type} (fn : S → Node → S × Option V)
    (n : Node) (l : List Node) (st st2 : S) (v : V)
    (h : fn st n = (st2, some v)) :
    runVisitor fn (n :: l) st = (st2, some v) := by
  unfold runVisitor
  rw [h]

theorem runVisitor_append {S V : Type} (fn : S → Node → S × Option V)
    (l1 l2 : List Node) (st : S) :
    runVisitor fn (l1 ++ l2) st =
      match runVisitor fn l1 st with
      | (t, none) => runVisitor fn l2 t
      | (t, some v) => (t, some v) := by
  induction l1 generalizing st with
  | nil => simp [runVisitor]
  | cons n rest ih =>
      rw [List.cons_append]
      rcases hfn : fn st n with ⟨st2, r⟩
      cases r with
      | none =>
          rw [runVisitor_cons_none fn n (rest ++ l2) st st2 hfn,
            runVisitor_cons_none fn n rest st st2 hfn]
          exact ih st2
      | some v =>
          rw [runVisitor_cons_some fn n (rest ++ l2) st st2 v hfn,
            runVisitor_cons_some fn n rest st st2 v hfn]

theorem runVisitor_none_eq_foldl {S V : Type} (fn : S → Node → S × Option V)
    (l : List Node) (st : S) (h : (runVisitor fn l st).2 = none) :
    runVisitor fn l st = (l.foldl (fun a n => (fn a n).1) st, none) := by
  induction l generalizing st with
  | nil => simp [runVisitor]
  | cons n rest ih =>
      unfold runVisitor at h ⊢
      rcases hfn : fn st n with ⟨st2, r⟩
      rw [hfn] at h
      cases r with
      | none =>
          simp only at h ⊢
          rw [ih st2 h, List.foldl_cons, hfn]
      | some v => simp at h

theorem splitSlashAux_no_slash (cs : List Char) (cur : List Char)
    (h : '/' ∉ cs) : splitSlashAux cur cs = [cur ++ cs] := by
  induction cs generalizing cur with
  | nil => simp [splitSlashAux]
  | cons c rest ih =>
      have hc : c ≠ '/' := fun he => h (he ▸ List.mem_cons_self c rest)
      have hr : '/' ∉ rest := fun hm => h (List.mem_cons_of_mem c hm)
      unfold splitSlashAux
      rw [if_neg (fun he => hc he)]
      rw [ih (cur ++ [c]) hr]
      simp

theorem normalize_good_seg {k : String} (h : goodSeg k) :
    normalize_storage_path k = [k] := by
  obtain ⟨hne, hns⟩ := h
  have hdata : k.data ≠ [] := by
    intro hd
    exact hne (string_ext (by simpa using hd))
  unfold normalize_storage_path
  rw [splitSlashAux_no_slash k.data [] hns]
  simp only [List.nil_append]
  rw [List.filter_cons_of_pos (by simpa using hdata)]
  rfl

theorem resolveItem_good_seg (p : List String) {k : String} (h : goodSeg k) :
    resolveItem p k = p ++ [k] := by
  have habs : pyIsAbs k = false := by
    unfold pyIsAbs
    cases hd : k.data with
    | nil => rfl
    | cons c rest =>
        have hc : c ∈ k.data := hd ▸ List.mem_cons_self c rest
        have : c ≠ '/' := fun he => h.2 (he ▸ hc)
        simp [this]
  unfold resolveItem
  rw [habs, normalize_good_seg h]
  simp

theorem childObj_path_good (s : Store) (p : List String) {k : String}
    (h : goodSeg k) : (childObj s p k).pathOf = p ++ [k] := by
  unfold childObj
  rw [resolveItem_good_seg p h]
  by_cases hc : contains_array s (p ++ [k]) = true
  · simp [hc, Node.pathOf]
  · simp [hc, Node.pathOf]

theorem listdir_good (s : Store) (p : List String) (hwf : StoreWF s)
    {k : String} (h : k ∈ listdir s p) : goodSeg k := by
  unfold listdir at h
  rw [List.mem_dedup] at h
  rw [List.mem_filterMap] at h
  obtain ⟨key, hkey, hchild⟩ := h
  rw [List.mem_map] at hkey
  obtain ⟨kv, hkv, hkveq⟩ := hkey
  unfold childName at hchild
  by_cases htake : key.take p.length = p
  · rw [if_pos htake] at hchild
    have hkmem : k ∈ key := List.get?_mem hchild
    exact hwf kv hkv k (hkveq ▸ hkmem)
  · rw [if_neg htake] at hchild
    exact absurd hchild (by simp)

theorem membersAt_good (s : Store) (p : List String) (hwf : StoreWF s)
    {k : String} (h : k ∈ membersAt s p) : goodSeg k :=
  listdir_good s p hwf (mem_membersAt.mp h).1

theorem preorderF_array (s : Store) (fuel : Nat) (p : List String) :
    preorderF s fuel (.array p) = [.array p] := by
  cases fuel <;> rfl

theorem preorderF_succ_group (s : Store) (fuel : Nat) (p : List String) :
    preorderF s (fuel + 1) (.group p) =
      .group p ::
        (membersAt s p).flatMap (fun k => preorderF s fuel (childObj s p k)) :=
  rfl

theorem preorderF_path_extends (s : Store) (hwf : StoreWF s) :
    ∀ (fuel : Nat) (n m : Node), m ∈ preorderF s fuel n →
      n.pathOf <+: m.pathOf := by
  intro fuel
  induction fuel with
  | zero =>
      intro n m hm
      cases n with
      | array p =>
          rw [preorderF_array] at hm
          simp at hm
          rw [hm]
      | group p =>
          have : m = .group p := by simpa [preorderF] using hm
          rw [this]
  | succ fuel ih =>
      intro n m hm
      cases n with
      | array p =>
          rw [preorderF_array] at hm
          simp at hm
          rw [hm]
      | group p =>
          rw [preorderF_succ_group] at hm
          rcases List.mem_cons.mp hm with hm | hm
          · rw [hm]
          · rw [List.mem_flatMap] at hm
            obtain ⟨k, hk, hm'⟩ := hm
            have hgood := membersAt_good s p hwf hk
            have h1 := ih (childObj s p k) m hm'
            rw [childObj_path_good s p hgood] at h1
            exact (List.prefix_append p [k]).trans h1

theorem preorderF_tail_structure (s : Store) (hwf : StoreWF s) (fuel : Nat)
    (p : List String) {m : Node}
    (hm : m ∈ (membersAt s p).flatMap (fun k => preorderF s fuel (childObj s p k))) :
    ∃ k rest, k ∈ membersAt s p ∧ m.pathOf = p ++ k :: rest := by
  rw [List.mem_flatMap] at hm
  obtain ⟨k, hk, hm'⟩ := hm
  have hgood := membersAt_good s p hwf hk
  have h1 := preorderF_path_extends s hwf fuel (childObj s p k) m hm'
  rw [childObj_path_good s p hgood] at h1
  obtain ⟨r, hr⟩ := h1
  exact ⟨k, r, hk, by rw [← hr]; simp⟩

theorem preorderF_drop_good (s : Store) (hwf : StoreWF s) :
    ∀ (fuel : Nat) (n m : Node), m ∈ preorderF s fuel n →
      ∀ x ∈ m.pathOf.drop n.pathOf.length, goodSeg x := by
  intro fuel
  induction fuel with
  | zero =>
      intro n m hm x hx
      cases n with
      | array p =>
          rw [preorderF_array] at hm
          simp at hm
          rw [hm] at hx
          simp [Node.pathOf, List.drop_length] at hx
      | group p =>
          have hmp : m = .group p := by simpa [preorderF] using hm
          rw [hmp] at hx
          simp [Node.pathOf, List.drop_length] at hx
  | succ fuel ih =>
      intro n m hm x hx
      cases n with
      | array p =>
          rw [preorderF_array] at hm
          simp at hm
          rw [hm] at hx
          simp [Node.pathOf, List.drop_length] at hx
      | group p =>
          rw [preorderF_succ_group] at hm
          rcases List.mem_cons.mp hm with hmp | hm
          · rw [hmp] at hx
            simp [Node.pathOf, List.drop_length] at hx
          · rw [List.mem_flatMap] at hm
            obtain ⟨k, hk, hm'⟩ := hm
            have hgood := membersAt_good s p hwf hk
            have h1 := preorderF_path_extends s hwf fuel (childObj s p k) m hm'
            rw [childObj_path_good s p hgood] at h1
            obtain ⟨r, hr⟩ := h1
            have hmpath : m.pathOf = p ++ ([k] ++ r) := by
              rw [← hr]
              simp [Node.pathOf]
            rw [hmpath] at hx
            simp only [Node.pathOf] at hx
            rw [List.drop_left] at hx
            rcases List.mem_cons.mp hx with hxk | hxr
            · exact hxk ▸ hgood
            · have h2 := ih (childObj s p k) m hm' x
              rw [childObj_path_good s p hgood, hmpath] at h2
              apply h2
              rw [← List.append_assoc p [k] r, List.drop_left]
              simpa using hxr

theorem descendants_structure (g : ZGroup) (s : Store) (hwf : StoreWF s)
    {m : Node} (hm : m ∈ g.descendants s) :
    ∃ k rest, k ∈ membersAt s g.path ∧ m.pathOf = g.path ++ k :: rest := by
  have hdesc : g.descendants s =
      (membersAt s g.path).flatMap
        (fun k => preorderF s (maxKeyDepth s) (childObj s g.path k)) := by
    unfold ZGroup.descendants fuelOf
    rw [preorderF_succ_group]
    rfl
  rw [hdesc] at hm
  exact preorderF_tail_structure s hwf (maxKeyDepth s) g.path hm

theorem str_data_append (a b : String) : (a ++ b).data = a.data ++ b.data := by
  cases a
  cases b
  rfl

theorem str_append_assoc (a b c : String) : a ++ b ++ c = a ++ (b ++ c) :=
  string_ext (by
    rw [str_data_append, str_data_append, str_data_append, str_data_append,
      List.append_assoc])

theorem joinSlash_cons (x : String) (xs : List String) (h : xs ≠ []) :
    joinSlash (x :: xs) = x ++ "/" ++ joinSlash xs := by
  cases xs with
  | nil => exact absurd rfl h
  | cons z zs => rfl

theorem joinSlash_append (a b : List String) (ha : a ≠ []) (hb : b ≠ []) :
    joinSlash (a ++ b) = joinSlash a ++ "/" ++ joinSlash b := by
  induction a with
  | nil => exact absurd rfl ha
  | cons x xs ih =>
      cases xs with
      | nil =>
          cases b with
          | nil => exact absurd rfl hb
          | cons y ys => rfl
      | cons z zs =>
          rw [List.cons_append,
            joinSlash_cons x ((z :: zs) ++ b) (by simp),
            joinSlash_cons x (z :: zs) (by simp),
            ih (by simp)]
          apply string_ext
          simp [str_data_append]

theorem nameOfPath_data (p : List String) :
    (nameOfPath p).data = '/' :: (joinSlash p).data := by
  unfold nameOfPath
  rw [str_data_append]
  rfl

theorem nameOfPath_length (p : List String) :
    (nameOfPath p).length = 1 + (joinSlash p).data.length := by
  show (nameOfPath p).data.length = _
  rw [nameOfPath_data]
  simp [Nat.add_comm]

theorem joinSlash_data_front (k : String) (rs : List String) :
    ∃ cs, (joinSlash (k :: rs)).data = k.data ++ cs := by
  cases rs with
  | nil => exact ⟨[], by simp [joinSlash]⟩
  | cons z zs =>
      refine ⟨'/' :: (joinSlash (z :: zs)).data, ?_⟩
      rw [joinSlash_cons k (z :: zs) (by simp)]
      rw [str_data_append, str_data_append]
      simp

theorem relOf_spec (g : ZGroup) (m : Node) (rest : List String)
    (hpath : m.pathOf = g.path ++ rest) (hrestne : rest ≠ [])
    (hgood : ∀ x ∈ rest, goodSeg x) :
    relOf g m = joinSlash rest ∧ (relOf g m).data.head? ≠ some '/' := by
  obtain ⟨k, rs, hrest⟩ : ∃ k rs, rest = k :: rs := by
    cases rest with
    | nil => exact absurd rfl hrestne
    | cons k rs => exact ⟨k, rs, rfl⟩
  have hk : goodSeg k := hgood k (hrest ▸ List.mem_cons_self k rs)
  obtain ⟨cs, hcs⟩ := joinSlash_data_front k rs
  obtain ⟨c, cs', hkd⟩ : ∃ c cs', k.data = c :: cs' := by
    cases hkd : k.data with
    | nil => exact absurd (string_ext (by simpa using hkd)) hk.1
    | cons c cs' => exact ⟨c, cs', rfl⟩
  have hcne : c ≠ '/' := fun he => hk.2 (he ▸ (hkd ▸ List.mem_cons_self c cs'))
  have hJrest : (joinSlash rest).data = c :: (cs' ++ cs) := by
    rw [hrest, hcs, hkd]
    rfl
  have hdw : (joinSlash rest).data.dropWhile (fun x => x = '/') =
      (joinSlash rest).data := by
    rw [hJrest, List.dropWhile_cons]
    simp [hcne]
  have hrel : relOf g m = String.mk
      (((nameOfPath m.pathOf).data.drop (nameOfPath g.path).length).dropWhile
        (fun x => x = '/')) := rfl
  have hmain : relOf g m = joinSlash rest := by
    cases hgp : g.path with
    | nil =>
        rw [hrel]
        rw [hpath, hgp, List.nil_append, nameOfPath_data]
        have hlen : (nameOfPath ([] : List String)).length = 1 := rfl
        rw [hlen, List.drop_succ_cons, List.drop_zero, hdw]
    | cons hd tl =>
        rw [hrel, hpath, hgp]
        rw [nameOfPath_data, nameOfPath_length]
        rw [show (hd :: tl) ++ rest = (hd :: tl) ++ rest from rfl]
        rw [joinSlash_append (hd :: tl) rest (by simp) hrestne]
        rw [str_data_append, str_data_append]
        have hsl : ("/" : String).data = ['/'] := rfl
        rw [hsl]
        rw [Nat.add_comm 1 (joinSlash (hd :: tl)).data.length, List.drop_succ_cons]
        rw [List.append_assoc, List.drop_left]
        rw [List.singleton_append, List.dropWhile_cons]
        simp only [decide_eq_true_eq, if_pos rfl, hdw]
        simp [hdw]
  refine ⟨hmain, ?_⟩
  rw [hmain, hJrest]
  simp [hcne]

theorem pathLtB_proper (p q : List String) (hq : q ≠ []) :
    pathLtB p (p ++ q) = true := by
  induction p with
  | nil =>
      cases q with
      | nil => exact absurd rfl hq
      | cons y ys => rfl
  | cons a as ih =>
      rw [List.cons_append]
      unfold pathLtB
      simp [strLt, charListLt_irrefl, ih]

theorem pathLtB_sibling (p : List String) (k1 k2 : String) (r1 r2 : List String)
    (h : strLt k1 k2 = true) :
    pathLtB (p ++ k1 :: r1) (p ++ k2 :: r2) = true := by
  induction p with
  | nil => simp [pathLtB, h]
  | cons a as ih =>
      rw [List.cons_append, List.cons_append]
      unfold pathLtB
      simp [strLt, charListLt_irrefl, ih]

theorem flatMap_paths_sorted (s : Store) (hwf : StoreWF s) (fuel : Nat)
    (p : List String)
    (ih : ∀ n : Node, List.Sorted (fun a b => pathLtB a b = true)
      ((preorderF s fuel n).map Node.pathOf)) :
    ∀ ks : List String, (∀ k ∈ ks, goodSeg k) →
      List.Sorted (fun a b => strLt a b = true) ks →
      List.Sorted (fun a b => pathLtB a b = true)
        ((ks.flatMap (fun k => preorderF s fuel (childObj s p k))).map Node.pathOf) := by
  intro ks
  induction ks with
  | nil => simp
  | cons k ks ihk =>
      intro hgood hsort
      rw [List.flatMap_cons, List.map_append]
      refine List.pairwise_append.mpr ⟨ih (childObj s p k),
        ihk (fun x hx => hgood x (List.mem_cons_of_mem k hx)) hsort.of_cons, ?cross⟩
      case cross =>
        intro q1 hq1 q2 hq2
        rw [List.mem_map] at hq1 hq2
        obtain ⟨m1, hm1, hq1e⟩ := hq1
        obtain ⟨m2, hm2, hq2e⟩ := hq2
        have h1 := preorderF_path_extends s hwf fuel _ m1 hm1
        rw [childObj_path_good s p (hgood k (List.mem_cons_self k ks))] at h1
        obtain ⟨r1, hr1⟩ := h1
        rw [List.mem_flatMap] at hm2
        obtain ⟨k2, hk2, hm2'⟩ := hm2
        have h2 := preorderF_path_extends s hwf fuel _ m2 hm2'
        rw [childObj_path_good s p
          (hgood k2 (List.mem_cons_of_mem k hk2))] at h2
        obtain ⟨r2, hr2⟩ := h2
        have hkk2 : strLt k k2 = true := List.rel_of_sorted_cons hsort k2 hk2
        subst hq1e hq2e
        rw [← hr1, ← hr2]
        rw [List.append_assoc, List.append_assoc, List.singleton_append]
        exact pathLtB_sibling p k k2 r1 r2 hkk2

theorem preorderF_paths_sorted (s : Store) (hwf : StoreWF s) :
    ∀ (fuel : Nat) (n : Node),
      List.Sorted (fun a b => pathLtB a b = true)
        ((preorderF s fuel n).map Node.pathOf) := by
  intro fuel
  induction fuel with
  | zero =>
      intro n
      cases n with
      | array p => simp [preorderF_array]
      | group p => simp [preorderF]
  | succ fuel ih =>
      intro n
      cases n with
      | array p => simp [preorderF_array]
      | group p =>
          rw [preorderF_succ_group, List.map_cons, List.sorted_cons]
          constructor
          · intro q hq
            rw [List.mem_map] at hq
            obtain ⟨m, hm, hqe⟩ := hq
            obtain ⟨k, rest, hk, hpath⟩ :=
              preorderF_tail_structure s hwf fuel p hm
            subst hqe
            rw [show (Node.group p).pathOf = p from rfl, hpath]
            exact pathLtB_proper p (k :: rest) (by simp)
          · exact flatMap_paths_sorted s hwf fuel p ih (membersAt s p)
              (fun k hk => membersAt_good s p hwf hk) (membersAt_sorted s p)

theorem descendants_paths_sorted (g : ZGroup) (s : Store) (hwf : StoreWF s) :
    List.Sorted (fun a b => pathLtB a b = true)
      ((g.descendants s).map Node.pathOf) := by
  have h := preorderF_paths_sorted s hwf (fuelOf s) (.group g.path)
  have hmap : (g.descendants s).map Node.pathOf =
      ((preorderF s (fuelOf s) (.group g.path)).map Node.pathOf).drop 1 := by
    unfold ZGroup.descendants
    rw [List.map_drop]
  rw [hmap]
  exact h.sublist (List.drop_sublist 1 _)

/-- Claim C3: `visitvalues` runs the visitor over the depth-first pre-order
sequence of the handle's descendants — never over the root handle itself —
applying it to each node in traversal order; as soon as the visitor returns a
non-continue (non-`None`) value the traversal stops, no further node is
visited (the state is exactly the fold over the prefix up to that node), and
that value is the overall result; if the visitor returns the continue value
everywhere, every descendant is visited and the continue value is returned. -/
theorem visitvalues_preorder_shortcircuit {S V : Type} (g : ZGroup) (s : Store)
    (hwf : StoreWF s) (fn : S → Node → S × Option V) (st : S) :
    Node.group g.path ∉ g.descendants s
  ∧ g.visitvalues s fn st = runVisitor fn (g.descendants s) st
  ∧ (∀ (pre : List Node) (n : Node) (post : List Node) (t u : S) (v : V),
      g.descendants s = pre ++ n :: post →
      runVisitor fn pre st = (t, none) →
      fn t n = (u, some v) →
      g.visitvalues s fn st = (u, some v))
  ∧ ((g.visitvalues s fn st).2 = none →
      g.visitvalues s fn st =
        ((g.descendants s).foldl (fun a n => (fn a n).1) st, none)) := by
  refine ⟨?h1, rfl, ?h3, ?h4⟩
  case h1 =>
    intro hmem
    obtain ⟨k, rest, hk, hpath⟩ := descendants_structure g s hwf hmem
    have hlen := congrArg List.length hpath
    simp [Node.pathOf] at hlen
  case h3 =>
    intro pre n post t u v hsplit hpre hfn
    show runVisitor fn (g.descendants s) st = (u, some v)
    rw [hsplit, runVisitor_append, hpre]
    exact runVisitor_cons_some fn n post t u v hfn
  case h4 =>
    intro h
    exact runVisitor_none_eq_foldl fn (g.descendants s) st h

/-- Claim C3 witness: on a tree with descendants `bar`, `bar/baz`, `foo`, a
visitor that returns a value on the second visited node stops there — the
result is that value with the counter at 2, the third node untouched. -/
theorem visitvalues_preorder_shortcircuit_witness :
    ZGroup.visitvalues ⟨[], false, false⟩
      ([([".zgroup"], Value.groupMeta),
        (["bar", ".zgroup"], Value.groupMeta),
        (["bar", "baz", ".zgroup"], Value.groupMeta),
        (["foo", ".zarray"], Value.arrayMeta [1] Dtype.f8)] : Store)
      (fun (c : Nat) (n : Node) =>
        (c + 1, if c = 1 then some (nameOfPath n.pathOf) else none)) 0 =
      (2, some "/bar/baz") :=
  (visitvalues_preorder_shortcircuit ⟨[], false, false⟩
      ([([".zgroup"], Value.groupMeta),
        (["bar", ".zgroup"], Value.groupMeta),
        (["bar", "baz", ".zgroup"], Value.groupMeta),
        (["foo", ".zarray"], Value.arrayMeta [1] Dtype.f8)] : Store)
      (by decide)
      (fun (c : Nat) (n : Node) =>
        (c + 1, if c = 1 then some (nameOfPath n.pathOf) else none))
      0).2.2.1
    [Node.group ["bar"]] (Node.group ["bar", "baz"]) [Node.array ["foo"]]
    1 2 "/bar/baz" rfl rfl rfl

/-- Claim C4: `visit` forwards the short-circuit semantics of `visitvalues`,
handing the visitor each descendant's path relative to the root handle — the
separator-joined suffix of its segments past the root's, never carrying a
leading separator — and the emitted path sequence is strictly sorted in
depth-first order (`pathLtB`): every parent precedes its own children and
siblings appear in lexicographically sorted order. -/
theorem visit_relative_paths_sorted {S V : Type} (g : ZGroup) (s : Store)
    (hwf : StoreWF s) (fn : S → String → S × Option V) (st : S) :
    g.visit s fn st = g.visitvalues s (fun a o => fn a (relOf g o)) st
  ∧ (∀ m ∈ g.descendants s,
        g.path <+: m.pathOf ∧ m.pathOf ≠ g.path ∧
        relOf g m = joinSlash (m.pathOf.drop g.path.length) ∧
        (relOf g m).data.head? ≠ some '/')
  ∧ List.Sorted (fun a b => pathLtB a b = true)
      ((g.descendants s).map Node.pathOf) := by
  refine ⟨rfl, ?h2, descendants_paths_sorted g s hwf⟩
  case h2 =>
    intro m hm
    obtain ⟨k, rest, hk, hpath⟩ := descendants_structure g s hwf hm
    have hmempre : m ∈ preorderF s (fuelOf s) (.group g.path) :=
      (List.drop_sublist 1 _).subset hm
    have hgoodtail : ∀ x ∈ m.pathOf.drop g.path.length, goodSeg x :=
      preorderF_drop_good s hwf (fuelOf s) (.group g.path) m hmempre
    have hdrop : m.pathOf.drop g.path.length = k :: rest := by
      rw [hpath, List.drop_left]
    obtain ⟨hrel, hhead⟩ := relOf_spec g m (k :: rest) hpath (by simp)
      (by
        intro x hx
        exact hgoodtail x (hdrop ▸ hx))
    refine ⟨⟨k :: rest, hpath.symm⟩, ?hne, ?heq, hhead⟩
    case hne =>
      intro he
      have hlen := congrArg List.length (he ▸ hpath)
      simp at hlen
    case heq =>
      rw [hdrop]
      exact hrel

/-- Claim C4 witness: on the same tree the descendant `bar/baz` is handed to
the visitor as the relative path `"bar/baz"` with no leading separator. -/
theorem visit_relative_paths_sorted_witness :
    relOf ⟨[], false, false⟩ (Node.group ["bar", "baz"]) = "bar/baz" :=
  (((visit_relative_paths_sorted ⟨[], false, false⟩
      ([([".zgroup"], Value.groupMeta),
        (["bar", ".zgroup"], Value.groupMeta),
        (["bar", "baz", ".zgroup"], Value.groupMeta),
        (["foo", ".zarray"], Value.arrayMeta [1] Dtype.f8)] : Store)
      (by decide)
      (fun (c : Nat) (p : String) => (c, (none : Option Nat)))
      0).2.1 (Node.group ["bar", "baz"]) (by decide)).2.2).1
